import Mathlib

/-!
Verification of the contour endpoints/node-weight translation core.

The Go sources embedded here:
  * `internal/contour` node-weight cache (`NodeWeightCache`, its handlers
    `OnAdd` / `OnUpdate` / `OnDelete`, `GetNodeWeight`, `setWeight`,
    `updateWeight`, and the helpers `getIntAnnotation` / `normalizeWeight` /
    `getWeightFromAnnotation`) — modelled one-to-one from the source
    (identifiers ending in a reserved suffix are shortened: the Go
    `NodeWeightAnnotation` field is `NodeWeightAnn` here, `getIntAnnotation`
    is `getIntAnn`, `getWeightFromAnnotation` is `getWeightFromAnn`).
  * `internal/contour/node.go` legacy `NodeWeightProvider` struct, modelled
    one-to-one for the refinement comparison.
  * The `EndpointsTranslator` implementation is not part of the provided
    sources (only its tests are), so its `recomputeClusterLoadAssignment`
    algorithm is modelled from the specification (see the doc comments of
    `recompute` and its helpers below).

Go maps are modelled as association lists with a replace-in-place insert
(`ainsert`), a first-occurrence erase (`aerase`) and a first-occurrence
lookup (`alookup`); every map built by the modelled code keeps its keys
`Nodup`, so these agree with Go map semantics.  Go `interface{}` values
delivered to the cache handlers are modelled by the closed inductive
`KObject`; `DeletedFinalStateUnknown` is the `tombstone` constructor.
-/

/-- Association-list lookup: first entry with the given key (Go map read). -/
def alookup {κ β : Type} [DecidableEq κ] (k : κ) : List (κ × β) → Option β
  | [] => none
  | (k', v) :: rest => if k' = k then some v else alookup k rest

/-- Association-list insert: replace the first entry with the given key in
place, or append a new entry (Go map write). -/
def ainsert {κ β : Type} [DecidableEq κ] (k : κ) (v : β) : List (κ × β) → List (κ × β)
  | [] => [(k, v)]
  | (k', v') :: rest => if k' = k then (k, v) :: rest else (k', v') :: ainsert k v rest

/-- Association-list erase: drop the first entry with the given key (Go map
delete; on `Nodup`-keyed lists this removes the key entirely). -/
def aerase {κ β : Type} [DecidableEq κ] (k : κ) : List (κ × β) → List (κ × β)
  | [] => []
  | (k', v') :: rest => if k' = k then rest else (k', v') :: aerase k rest

/-! ## Kubernetes object model

Only the fields the translated code reads are modelled: `ObjectMeta.Name`,
`ObjectMeta.Namespace` (field `ns` here, `namespace` being reserved),
`ObjectMeta.Annotations`, `Endpoints.Subsets` and the address/port lists. -/

/-- Kubernetes `metav1.ObjectMeta` restricted to the fields the code reads. -/
structure ObjectMeta where
  name : String
  ns : String
  annotations : List (String × String)
  deriving DecidableEq, Repr

/-- Kubernetes `v1.Node` restricted to its metadata. -/
structure Node where
  meta : ObjectMeta
  deriving DecidableEq, Repr

/-- A Kubernetes `v1.EndpointAddress`: an IP and an optional owning node. -/
structure EndpointAddress where
  ip : String
  nodeName : Option String
  deriving DecidableEq, Repr

/-- A Kubernetes `v1.EndpointPort`: an optional name (empty string when
unnamed) and a numeric port. -/
structure EndpointPort where
  name : String
  port : Int
  deriving DecidableEq, Repr

/-- A Kubernetes `v1.EndpointSubset`. -/
structure EndpointSubset where
  addresses : List EndpointAddress
  ports : List EndpointPort
  deriving DecidableEq, Repr

/-- A Kubernetes `v1.Endpoints` object, identified by (namespace, name). -/
structure Endpoints where
  ns : String
  name : String
  subsets : List EndpointSubset
  deriving DecidableEq, Repr

/-- The universe of dynamically-typed values (`interface\x7b\x7d`) that the
Kubernetes watch layer can deliver to a handler.  `tombstone` models
`cache.DeletedFinalStateUnknown` (a delete whose final state was missed,
carrying a key and the last known value); `other` stands for any value of a
kind none of the handlers expect. -/
inductive KObject where
  | node : Node → KObject
  | endpoints : Endpoints → KObject
  | tombstone : String → KObject → KObject
  | other : KObject
  deriving DecidableEq, Repr

/-- True exactly on `KObject.node` values. -/
def KObject.isNode : KObject → Bool
  | .node _ => true
  | _ => false

/-- True exactly on `KObject.endpoints` values. -/
def KObject.isEndpoints : KObject → Bool
  | .endpoints _ => true
  | _ => false

/-- True exactly on `KObject.tombstone` values. -/
def KObject.isTombstone : KObject → Bool
  | .tombstone _ _ => true
  | _ => false

/-! ## Go `strconv.ParseInt(s, 10, 32)` -/

/-- Accumulate base-10 digits; any non-digit character fails the parse
(Go `strconv.ParseUint` body for base 10). -/
def parseDigits (acc : Nat) : List Char → Option Nat
  | [] => some acc
  | c :: rest =>
      if c.isDigit then parseDigits (acc * 10 + (c.toNat - 48)) rest
      else none

/-- Go `strconv.ParseInt(s, 10, 32)` as a partial function: an optional
leading sign followed by at least one base-10 digit, with the result
required to fit in a signed 32-bit integer; every failure (empty string,
stray characters, out-of-range value) is `none`, matching Go returning a
non-nil error in which case the caller ignores the parsed value. -/
def goParseInt32 (s : String) : Option Int :=
  let core : List Char → Bool → Option Int := fun digits neg =>
    match digits with
    | [] => none
    | _ =>
        match parseDigits 0 digits with
        | none => none
        | some n =>
            if neg then
              if (n : Int) ≤ 2 ^ 31 then some (-(n : Int)) else none
            else
              if (n : Int) ≤ 2 ^ 31 - 1 then some (n : Int) else none
  match s.data with
  | [] => none
  | '+' :: rest => core rest false
  | '-' :: rest => core rest true
  | l => core l false

/-! ## NodeWeightCache (source: the `contour` package implementation file)

The observer callback slot (`nodeWeightsChangedHandler`) is not carried in
the state; instead every handler reports in `HandlerOut.fires` how many
times `fireNodeWeightsChanged` ran (each such run invokes the registered
observer when one is registered — `RegisterOnNodeWeightsChanged` keeps a
single slot, a later registration replacing the former), and in
`HandlerOut.logged` whether `Errorf` was called. -/

/-- State of the Go `NodeWeightCache` struct: the annotation key
(`NodeWeightAnnotation` in Go), the configured default weight, and the
`nodeWeights` map. -/
structure NodeWeightCache where
  NodeWeightAnn : String
  DefaultNodeWeight : Int
  nodeWeights : List (String × Int)
  deriving DecidableEq, Repr

/-- Result of running one `NodeWeightCache` handler: the new state, the
number of observer invocations, and whether the event was logged as an
error. -/
structure HandlerOut where
  state : NodeWeightCache
  fires : Nat
  logged : Bool
  deriving DecidableEq, Repr

/-- Go `getIntAnnotation(meta, name, defaultValue)`: read the annotation
string and parse it; on a missing annotation or a parse error the default
is returned. -/
def getIntAnn (meta : ObjectMeta) (name : String) (defaultValue : Int) : Int :=
  match alookup name meta.annotations with
  | some s =>
      match goParseInt32 s with
      | some v => v
      | none => defaultValue
  | none => defaultValue

/-- Go `normalizeWeight(weight, defaultWeight)`: values outside [0, 128]
fall back to the default. -/
def normalizeWeight (weight defaultWeight : Int) : Int :=
  if weight < 0 ∨ weight > 128 then defaultWeight else weight

/-- Go `getWeightFromAnnotation(meta, annotationName, defaultWeight)`. -/
def getWeightFromAnn (meta : ObjectMeta) (annName : String) (defaultWeight : Int) : Int :=
  normalizeWeight (getIntAnn meta annName defaultWeight) defaultWeight

/-- Go `(*NodeWeightCache).GetNodeWeight(nodeName *string)`: the tracked
weight when the (present) name is tracked, the default weight otherwise. -/
def NodeWeightCache.GetNodeWeight (nwp : NodeWeightCache) (nodeName : Option String) : Int :=
  match nodeName with
  | some n =>
      match alookup n nwp.nodeWeights with
      | some weight => weight
      | none => nwp.DefaultNodeWeight
  | none => nwp.DefaultNodeWeight

/-- Go `(*NodeWeightCache).setWeight(node)`: store the weight computed from
the node's annotations and fire the observer when the node was untracked or
the stored weight changed. -/
def NodeWeightCache.setWeight (nwp : NodeWeightCache) (node : Node) : NodeWeightCache × Nat :=
  let newWeight := getWeightFromAnn node.meta nwp.NodeWeightAnn nwp.DefaultNodeWeight
  match alookup node.meta.name nwp.nodeWeights with
  | some weight =>
      if weight ≠ newWeight then
        ({ nwp with nodeWeights := ainsert node.meta.name newWeight nwp.nodeWeights }, 1)
      else (nwp, 0)
  | none =>
      ({ nwp with nodeWeights := ainsert node.meta.name newWeight nwp.nodeWeights }, 1)

/-- Go `(*NodeWeightCache).updateWeight(old, new)`: recompute only when the
old node is tracked, store and fire only when the weight changed. -/
def NodeWeightCache.updateWeight (nwp : NodeWeightCache) (old newNode : Node) :
    NodeWeightCache × Nat :=
  match alookup old.meta.name nwp.nodeWeights with
  | some oldWeight =>
      let newWeight := getWeightFromAnn newNode.meta nwp.NodeWeightAnn nwp.DefaultNodeWeight
      if oldWeight ≠ newWeight then
        ({ nwp with nodeWeights := ainsert old.meta.name newWeight nwp.nodeWeights }, 1)
      else (nwp, 0)
  | none => (nwp, 0)

/-- Go `(*NodeWeightCache).OnAdd(obj)`: dispatch on the dynamic kind; a
`*v1.Node` goes to `setWeight`, anything else is logged and dropped. -/
def NodeWeightCache.OnAdd (nwp : NodeWeightCache) (obj : KObject) : HandlerOut :=
  match obj with
  | .node n =>
      let r := nwp.setWeight n
      ⟨r.1, r.2, false⟩
  | _ => ⟨nwp, 0, true⟩

/-- Go `(*NodeWeightCache).OnUpdate(oldObj, newObj)`: a `*v1.Node` pair goes
to `updateWeight`; a `*v1.Endpoints` new value is accepted and ignored when
the old value is also `*v1.Endpoints` (and logged otherwise); any other new
kind is logged and dropped. -/
def NodeWeightCache.OnUpdate (nwp : NodeWeightCache) (oldObj newObj : KObject) : HandlerOut :=
  match newObj with
  | .node n =>
      match oldObj with
      | .node o =>
          let r := nwp.updateWeight o n
          ⟨r.1, r.2, false⟩
      | _ => ⟨nwp, 0, true⟩
  | .endpoints _ =>
      match oldObj with
      | .endpoints _ => ⟨nwp, 0, false⟩
      | _ => ⟨nwp, 0, true⟩
  | _ => ⟨nwp, 0, true⟩

/-- Go `(*NodeWeightCache).OnDelete(obj)`: a `*v1.Node` is removed from the
map; a `DeletedFinalStateUnknown` tombstone recurses on the wrapped value;
anything else is logged and dropped. -/
def NodeWeightCache.OnDelete (nwp : NodeWeightCache) : KObject → HandlerOut
  | .node n => ⟨{ nwp with nodeWeights := aerase n.meta.name nwp.nodeWeights }, 0, false⟩
  | .tombstone _ o => nwp.OnDelete o
  | _ => ⟨nwp, 0, true⟩

/-! ## Legacy NodeWeightProvider (source: `internal/contour/node.go`)

The struct version of the cache: same `GetNodeWeight`, `updateWeight`,
`OnDelete` logic; `OnAdd` stores unconditionally; no observer slot at all.
Handlers return only the new state (logging carries no state). -/

/-- State of the Go `NodeWeightProvider` struct of `node.go`. -/
structure NodeWeightProvider where
  NodeWeightAnn : String
  DefaultNodeWeight : Int
  nodeWeights : List (String × Int)
  deriving DecidableEq, Repr

/-- Go `(*NodeWeightProvider).GetNodeWeight(nodeName *string)`. -/
def NodeWeightProvider.GetNodeWeight (nwp : NodeWeightProvider) (nodeName : Option String) : Int :=
  match nodeName with
  | some n =>
      match alookup n nwp.nodeWeights with
      | some weight => weight
      | none => nwp.DefaultNodeWeight
  | none => nwp.DefaultNodeWeight

/-- Go `(*NodeWeightProvider).updateWeight(old, new)` from `node.go`. -/
def NodeWeightProvider.updateWeight (nwp : NodeWeightProvider) (old newNode : Node) :
    NodeWeightProvider :=
  match alookup old.meta.name nwp.nodeWeights with
  | some oldWeight =>
      let newWeight := getWeightFromAnn newNode.meta nwp.NodeWeightAnn nwp.DefaultNodeWeight
      if oldWeight ≠ newWeight then
        { nwp with nodeWeights := ainsert old.meta.name newWeight nwp.nodeWeights }
      else nwp
  | none => nwp

/-- Go `(*NodeWeightProvider).OnAdd(obj)` from `node.go`: stores the computed
weight unconditionally for a `*v1.Node`, logs and drops anything else. -/
def NodeWeightProvider.OnAdd (nwp : NodeWeightProvider) (obj : KObject) : NodeWeightProvider :=
  match obj with
  | .node n =>
      { nwp with
          nodeWeights :=
            ainsert n.meta.name
              (getWeightFromAnn n.meta nwp.NodeWeightAnn nwp.DefaultNodeWeight)
              nwp.nodeWeights }
  | _ => nwp

/-- Go `(*NodeWeightProvider).OnUpdate(oldObj, newObj)` from `node.go`. -/
def NodeWeightProvider.OnUpdate (nwp : NodeWeightProvider) (oldObj newObj : KObject) :
    NodeWeightProvider :=
  match newObj with
  | .node n =>
      match oldObj with
      | .node o => nwp.updateWeight o n
      | _ => nwp
  | _ => nwp

/-- Go `(*NodeWeightProvider).OnDelete(obj)` from `node.go`. -/
def NodeWeightProvider.OnDelete (nwp : NodeWeightProvider) : KObject → NodeWeightProvider
  | .node n => { nwp with nodeWeights := aerase n.meta.name nwp.nodeWeights }
  | .tombstone _ o => nwp.OnDelete o
  | _ => nwp

/-- One watch-layer event delivered to a node-weight cache. -/
inductive CacheEvent where
  | add : KObject → CacheEvent
  | update : KObject → KObject → CacheEvent
  | delete : KObject → CacheEvent
  deriving DecidableEq, Repr

/-- Feed one event to the `NodeWeightCache`, keeping only the state. -/
def NodeWeightCache.applyEvent (nwp : NodeWeightCache) : CacheEvent → NodeWeightCache
  | .add o => (nwp.OnAdd o).state
  | .update o n => (nwp.OnUpdate o n).state
  | .delete o => (nwp.OnDelete o).state

/-- Feed a list of events to the `NodeWeightCache`. -/
def NodeWeightCache.run (nwp : NodeWeightCache) : List CacheEvent → NodeWeightCache
  | [] => nwp
  | e :: rest => (nwp.applyEvent e).run rest

/-- Feed one event to the legacy `NodeWeightProvider`. -/
def NodeWeightProvider.applyEvent (nwp : NodeWeightProvider) : CacheEvent → NodeWeightProvider
  | .add o => nwp.OnAdd o
  | .update o n => nwp.OnUpdate o n
  | .delete o => nwp.OnDelete o

/-- Feed a list of events to the legacy `NodeWeightProvider`. -/
def NodeWeightProvider.run (nwp : NodeWeightProvider) : List CacheEvent → NodeWeightProvider
  | [] => nwp
  | e :: rest => (nwp.applyEvent e).run rest

/-! ## EndpointsTranslator (modelled from the spec)

Modelled from the spec: the `EndpointsTranslator` implementation
(`recomputeClusterLoadAssignment` and the `OnAdd`/`OnUpdate`/`OnDelete`
handlers that wrap it) is not among the provided sources — only its tests
are — so the definitions below follow the specification's §4.1 algorithm
and §3 naming rule word for word:

  * naming: collect the distinct port names across all subsets; if that set
    is exactly \x7b""\x7d (a single unnamed port) produce one key with no
    port segment, otherwise one key per distinct non-empty port name,
    with the port name as a final `/`-separated segment; the namespace
    segment is omitted when namespace-exclusion is on;
  * `Recompute(old, new)`: compute the keys implicated by `old` and `new`,
    store `new` (or erase on delete) in the per-source-identity record
    keyed by (namespace, name), then rebuild every implicated key from the
    contributions of all currently stored sources, deduplicated by address
    identity (IP, port); an empty rebuild deletes the key, a non-empty one
    replaces it;
  * every contributing address is weighted through
    `NodeWeightCache.GetNodeWeight`; the weight lookup is passed in here as
    the function `w`, and the construction-time namespace-exclusion flag as
    the boolean `exclude`.
-/

/-- One Envoy load-balancing member: socket address plus weight (the wire
encoding omits the weight field when it equals the default 1; the cache
value modelled here is the weight itself). -/
structure LbEndpoint where
  ip : String
  port : Int
  weight : Int
  deriving DecidableEq, Repr

/-- Address identity used for deduplication: (IP, port). -/
def addrKey (e : LbEndpoint) : String × Int := (e.ip, e.port)

/-- Keep the first occurrence of each address identity (worker for
`dedupAddrs`). -/
def dedupAddrsGo (seen : List (String × Int)) : List LbEndpoint → List LbEndpoint
  | [] => []
  | e :: rest =>
      if addrKey e ∈ seen then dedupAddrsGo seen rest
      else e :: dedupAddrsGo (addrKey e :: seen) rest

/-- Deduplicate a member list by address identity, keeping first
occurrences. -/
def dedupAddrs (l : List LbEndpoint) : List LbEndpoint := dedupAddrsGo [] l

/-- Keep the first occurrence of each string (worker for `dedupStr`). -/
def dedupStrGo (seen : List String) : List String → List String
  | [] => []
  | s :: rest =>
      if s ∈ seen then dedupStrGo seen rest
      else s :: dedupStrGo (s :: seen) rest

/-- Deduplicate a string list, keeping first occurrences. -/
def dedupStr (l : List String) : List String := dedupStrGo [] l

/-- All port names appearing in any subset of an Endpoints object
(with multiplicity, in order). -/
def portNamesAll (e : Endpoints) : List String :=
  e.subsets.flatMap fun s => s.ports.map EndpointPort.name

/-- The set of distinct port names across all subsets, in first-appearance
order. -/
def distinctPortNames (e : Endpoints) : List String := dedupStr (portNamesAll e)

/-- The port names an Endpoints object derives keys for: just `""` when the
object has exactly one distinct port name and it is empty (single unnamed
port), otherwise the distinct non-empty port names. -/
def derivedPortNames (e : Endpoints) : List String :=
  if distinctPortNames e = [""] then [""]
  else (distinctPortNames e).filter (fun pn => !(pn == ""))

/-- The cluster-name key for a (namespace, service, port-name) triple:
`"ns/svc"` (or `"svc"` with namespace-exclusion), with `"/portName"`
appended for a named port. -/
def clusterName (exclude : Bool) (ns svc pn : String) : String :=
  (if exclude then svc else ns ++ "/" ++ svc) ++ (if pn = "" then "" else "/" ++ pn)

/-- All cluster-name keys an Endpoints object maps to. -/
def derivedKeys (exclude : Bool) (e : Endpoints) : List String :=
  (derivedPortNames e).map (clusterName exclude e.ns e.name)

/-- The members an Endpoints object contributes for one port name: every
address of every subset that carries a port with that name, at that
subset's port number, weighted through the node-weight lookup `w`. -/
def lbEndpoints (w : Option String → Int) (e : Endpoints) (pn : String) : List LbEndpoint :=
  e.subsets.flatMap fun s =>
    (s.ports.filter (fun p => p.name == pn)).flatMap fun p =>
      s.addresses.map fun a => ⟨a.ip, p.port, w a.nodeName⟩

/-- The members an Endpoints object contributes to one cluster-name key. -/
def contribTo (exclude : Bool) (w : Option String → Int) (e : Endpoints) (k : String) :
    List LbEndpoint :=
  ((derivedPortNames e).filter (fun pn => clusterName exclude e.ns e.name pn == k)).flatMap
    (lbEndpoints w e)

/-- Rebuild one key's member list from scratch out of every stored source's
contribution, deduplicated by address identity. -/
def rebuildKey (exclude : Bool) (w : Option String → Int)
    (sources : List ((String × String) × Endpoints)) (k : String) : List LbEndpoint :=
  dedupAddrs (sources.flatMap fun p => contribTo exclude w p.2 k)

/-- Apply one rebuilt key to the cache: delete the key when the rebuild is
empty, store the rebuilt members otherwise. -/
def stepKey (exclude : Bool) (w : Option String → Int)
    (sources : List ((String × String) × Endpoints))
    (cache : List (String × List LbEndpoint)) (k : String) :
    List (String × List LbEndpoint) :=
  let ms := rebuildKey exclude w sources k
  if ms = [] then aerase k cache else ainsert k ms cache

/-- Translator state: the resource cache (cluster name → member list, the
sequence `Contents()` exposes) and the per-source-identity record of the
last Endpoints object received for each (namespace, name). -/
structure EndpointsTranslator where
  cache : List (String × List LbEndpoint)
  sources : List ((String × String) × Endpoints)
  deriving DecidableEq, Repr

/-- A translator with no cached entries and no recorded sources. -/
def EndpointsTranslator.empty : EndpointsTranslator := ⟨[], []⟩

/-- Spec §4.1 `Recompute(old, new)`. -/
def recompute (exclude : Bool) (w : Option String → Int) (st : EndpointsTranslator)
    (oldep newep : Option Endpoints) : EndpointsTranslator :=
  let keys := dedupStr (oldep.elim [] (derivedKeys exclude) ++ newep.elim [] (derivedKeys exclude))
  let sources' :=
    match newep with
    | some e => ainsert (e.ns, e.name) e st.sources
    | none =>
        match oldep with
        | some e => aerase (e.ns, e.name) st.sources
        | none => st.sources
  ⟨keys.foldl (stepKey exclude w sources') st.cache, sources'⟩

/-- One watch-layer Endpoints event. -/
inductive EpEvent where
  | add : Endpoints → EpEvent
  | update : Endpoints → Endpoints → EpEvent
  | delete : Endpoints → EpEvent
  deriving DecidableEq, Repr

/-- The handlers: `OnAdd(ep) = Recompute(nil, ep)`, `OnUpdate(old, new) =
Recompute(old, new)`, `OnDelete(ep) = Recompute(ep, nil)`. -/
def EndpointsTranslator.applyEvent (exclude : Bool) (w : Option String → Int)
    (st : EndpointsTranslator) : EpEvent → EndpointsTranslator
  | .add e => recompute exclude w st none (some e)
  | .update o n => recompute exclude w st (some o) (some n)
  | .delete e => recompute exclude w st (some e) none

/-- Feed a list of Endpoints events to the translator. -/
def EndpointsTranslator.runEvents (exclude : Bool) (w : Option String → Int)
    (st : EndpointsTranslator) : List EpEvent → EndpointsTranslator
  | [] => st
  | e :: rest => EndpointsTranslator.runEvents exclude w (st.applyEvent exclude w e) rest

/-- Total number of addresses across all subsets. -/
def totalAddresses (e : Endpoints) : Nat :=
  (e.subsets.map fun s => s.addresses.length).sum

/-! ## Slash-free strings and cluster-name injectivity

Kubernetes namespaces, object names and port names never contain `/`
(they are DNS labels), so the `/`-separated cluster-name keys of distinct
(namespace, name) identities never collide.  The lemmas below make that
precise for the namespace-qualified naming mode. -/

/-- True when the string contains no `/` character. -/
def noSlash (s : String) : Bool := s.data.all (fun c => !(c == '/'))

/-- Well-formedness of a translator state: duplicate-free cache and source
keys, every source stored under its own slash-free (namespace, name)
identity.  Every state reachable from `EndpointsTranslator.empty` by
events carrying slash-free identities satisfies this. -/
def WfTranslator (st : EndpointsTranslator) : Prop :=
  (st.cache.map Prod.fst).Nodup ∧
  (st.sources.map Prod.fst).Nodup ∧
  ∀ p ∈ st.sources,
    p.1 = (p.2.ns, p.2.name) ∧ noSlash p.2.ns = true ∧ noSlash p.2.name = true

/-! ## Concrete fixtures (from the repository's test data) -/

/-- The default weight lookup: every node weighs 1. -/
def w1 : Option String → Int := fun _ => 1

/-- The Endpoints object of `TestIssue602` before the scale-down. -/
def epSimple : Endpoints :=
  ⟨"default", "simple", [⟨[⟨"192.168.183.24", none⟩], [⟨"", 8080⟩]⟩]⟩

/-- The same object scaled to zero: no subsets at all. -/
def epEmptySimple : Endpoints := ⟨"default", "simple", []⟩

/-- The translator state of `TestIssue602` after the first add. -/
def stSimple : EndpointsTranslator :=
  EndpointsTranslator.applyEvent false w1 EndpointsTranslator.empty (EpEvent.add epSimple)

/-- The staging Endpoints object of the namespace-merge tests. -/
def epStaging : Endpoints :=
  ⟨"staging", "simple", [⟨[⟨"192.168.183.24", none⟩], [⟨"", 8080⟩]⟩]⟩

/-- The prod Endpoints object of the namespace-merge tests. -/
def epProd : Endpoints :=
  ⟨"prod", "simple",
    [⟨[⟨"192.168.183.25", none⟩, ⟨"192.168.183.26", none⟩, ⟨"192.168.183.27", none⟩,
       ⟨"192.168.183.28", none⟩, ⟨"192.168.183.29", none⟩], [⟨"", 8080⟩]⟩]⟩

/-- Like `epStaging` but with no addresses in its subset. -/
def epStagingEmpty : Endpoints := ⟨"staging", "simple", [⟨[], [⟨"", 8080⟩]⟩]⟩

/-- Like `epProd` but with no addresses in its subset. -/
def epProdEmpty : Endpoints := ⟨"prod", "simple", [⟨[], [⟨"", 8080⟩]⟩]⟩

/-- The Endpoints object of `TestAddEndpointComplicated`: two distinctly
named ports spread over three subsets. -/
def epKuard : Endpoints :=
  ⟨"default", "kuard",
    [⟨[⟨"10.48.1.77", none⟩], [⟨"foo", 9999⟩]⟩,
     ⟨[⟨"10.48.1.78", none⟩], [⟨"foo", 8080⟩]⟩,
     ⟨[⟨"10.48.1.77", none⟩, ⟨"10.48.1.78", none⟩], [⟨"admin", 9000⟩]⟩]⟩

/-- Two distinctly named ports but no addresses anywhere. -/
def epTwoPortsNoAddrs : Endpoints :=
  ⟨"default", "kuard", [⟨[], [⟨"foo", 9999⟩]⟩, ⟨[], [⟨"admin", 9000⟩]⟩]⟩

/-! ## Node-weight cache fixtures -/

/-- A fresh cache configured like the tests: annotation key
`weight-annotation`, default weight 1, nothing tracked. -/
def nwc0 : NodeWeightCache := ⟨"weight-annotation", 1, []⟩

/-- A cache already tracking `node1` at weight 77. -/
def nwcTracked : NodeWeightCache := ⟨"weight-annotation", 1, [("node1", 77)]⟩

/-- `node1` annotated with weight 5 (the `TestNodeWeightProvider`
"weight from annotation" input). -/
def nodeW5 : Node := ⟨⟨"node1", "", [("weight-annotation", "5")]⟩⟩

/-- `node1` annotated with the out-of-range weight 129. -/
def nodeW129 : Node := ⟨⟨"node1", "", [("weight-annotation", "129")]⟩⟩

/-- `node1` with no annotations. -/
def nodeNoAnn : Node := ⟨⟨"node1", "", []⟩⟩

/-- A plain Endpoints value used as a wrong-kind delivery. -/
def epPlain : Endpoints := ⟨"default", "simple", []⟩

/-- The legacy provider's state read as a cache state: the two structs
carry the same three fields. -/
def NodeWeightProvider.toCache (p : NodeWeightProvider) : NodeWeightCache :=
  ⟨p.NodeWeightAnn, p.DefaultNodeWeight, p.nodeWeights⟩

theorem alookup_eq_none_of_not_mem {κ β : Type} [DecidableEq κ] {k : κ}
    {l : List (κ × β)} (h : k ∉ l.map Prod.fst) : alookup k l = none := by
  induction l with
  | nil => rfl
  | cons p rest ih =>
      obtain ⟨k', v'⟩ := p
      simp only [List.map_cons, List.mem_cons] at h
      push_neg at h
      simp only [alookup]
      rw [if_neg (Ne.symm h.1)]
      exact ih h.2

theorem alookup_ainsert_self {κ β : Type} [DecidableEq κ] (k : κ) (v : β)
    (l : List (κ × β)) : alookup k (ainsert k v l) = some v := by
  induction l with
  | nil => simp [ainsert, alookup]
  | cons p rest ih =>
      obtain ⟨k', v'⟩ := p
      by_cases h : k' = k
      · simp [ainsert, alookup, h]
      · simp [ainsert, alookup, h, ih]

theorem alookup_ainsert_ne {κ β : Type} [DecidableEq κ] {k k' : κ} (v : β)
    (l : List (κ × β)) (h : k' ≠ k) : alookup k (ainsert k' v l) = alookup k l := by
  induction l with
  | nil => simp [ainsert, alookup, h]
  | cons p rest ih =>
      obtain ⟨k'', v''⟩ := p
      by_cases h2 : k'' = k'
      · subst h2; simp [ainsert, alookup, h, Ne.symm h]
      · by_cases h3 : k'' = k
        · subst h3
          simp [ainsert, alookup, h2, Ne.symm h]
        · simp [ainsert, alookup, h2, h3, ih]

theorem alookup_aerase_ne {κ β : Type} [DecidableEq κ] {k k' : κ}
    (l : List (κ × β)) (h : k' ≠ k) : alookup k (aerase k' l) = alookup k l := by
  induction l with
  | nil => simp [aerase]
  | cons p rest ih =>
      obtain ⟨k'', v''⟩ := p
      by_cases h2 : k'' = k'
      · subst h2; simp [aerase, alookup, h]
      · by_cases h3 : k'' = k
        · subst h3; simp [aerase, alookup, h2]
        · simp [aerase, alookup, h2, h3, ih]

theorem alookup_aerase_self {κ β : Type} [DecidableEq κ] (k : κ)
    (l : List (κ × β)) (hnd : (l.map Prod.fst).Nodup) :
    alookup k (aerase k l) = none := by
  induction l with
  | nil => rfl
  | cons p rest ih =>
      obtain ⟨k', v'⟩ := p
      simp only [List.map_cons, List.nodup_cons] at hnd
      by_cases h : k' = k
      · simp only [aerase, if_pos h]
        subst h
        exact alookup_eq_none_of_not_mem hnd.1
      · simp only [aerase, if_neg h, alookup, if_neg h]
        exact ih hnd.2

theorem map_fst_ainsert {κ β : Type} [DecidableEq κ] (k : κ) (v : β)
    (l : List (κ × β)) :
    (ainsert k v l).map Prod.fst =
      if k ∈ l.map Prod.fst then l.map Prod.fst else l.map Prod.fst ++ [k] := by
  induction l with
  | nil => simp [ainsert]
  | cons p rest ih =>
      obtain ⟨k', v'⟩ := p
      by_cases h : k' = k
      · subst h; simp [ainsert]
      · have h' : k ≠ k' := fun he => h he.symm
        simp only [ainsert, if_neg h, List.map_cons, ih, List.mem_cons, h']
        by_cases hm : k ∈ rest.map Prod.fst <;> simp [hm, h']

theorem nodup_ainsert {κ β : Type} [DecidableEq κ] (k : κ) (v : β)
    (l : List (κ × β)) (hnd : (l.map Prod.fst).Nodup) :
    ((ainsert k v l).map Prod.fst).Nodup := by
  rw [map_fst_ainsert]
  by_cases hm : k ∈ l.map Prod.fst
  · simpa [hm]
  · rw [if_neg hm, List.nodup_append]
    refine ⟨hnd, List.nodup_singleton k, ?_⟩
    intro a ha hb
    simp only [List.mem_singleton] at hb
    subst hb
    exact hm ha

theorem mem_aerase {κ β : Type} [DecidableEq κ] {k : κ} {p : κ × β}
    {l : List (κ × β)} (h : p ∈ aerase k l) : p ∈ l := by
  induction l with
  | nil => simp [aerase] at h
  | cons q rest ih =>
      obtain ⟨k', v'⟩ := q
      by_cases h2 : k' = k
      · simp only [aerase, if_pos h2] at h
        exact List.mem_cons_of_mem _ h
      · simp only [aerase, if_neg h2, List.mem_cons] at h
        rcases h with h | h
        · exact h ▸ List.mem_cons_self _ _
        · exact List.mem_cons_of_mem _ (ih h)

theorem nodup_aerase {κ β : Type} [DecidableEq κ] (k : κ)
    (l : List (κ × β)) (hnd : (l.map Prod.fst).Nodup) :
    ((aerase k l).map Prod.fst).Nodup := by
  induction l with
  | nil => simp [aerase]
  | cons p rest ih =>
      obtain ⟨k', v'⟩ := p
      simp only [List.map_cons, List.nodup_cons] at hnd
      by_cases h : k' = k
      · subst h; simpa [aerase] using hnd.2
      · simp only [aerase, if_neg h, List.map_cons, List.nodup_cons]
        refine ⟨fun hm => ?_, ih hnd.2⟩
        obtain ⟨x, hx, hfx⟩ := List.mem_map.mp hm
        exact hnd.1 (List.mem_map.mpr ⟨x, mem_aerase hx, hfx⟩)

theorem mem_ainsert {κ β : Type} [DecidableEq κ] {k : κ} {v : β} {p : κ × β}
    {l : List (κ × β)} (h : p ∈ ainsert k v l) : p = (k, v) ∨ p ∈ l := by
  induction l with
  | nil =>
      simp only [ainsert, List.mem_singleton] at h
      exact Or.inl h
  | cons q rest ih =>
      obtain ⟨k', v'⟩ := q
      by_cases h2 : k' = k
      · simp only [ainsert, if_pos h2, List.mem_cons] at h
        rcases h with h | h
        · exact Or.inl h
        · exact Or.inr (List.mem_cons_of_mem _ h)
      · simp only [ainsert, if_neg h2, List.mem_cons] at h
        rcases h with h | h
        · exact Or.inr (h ▸ List.mem_cons_self _ _)
        · rcases ih h with h | h
          · exact Or.inl h
          · exact Or.inr (List.mem_cons_of_mem _ h)

theorem mem_ainsert_nodup {κ β : Type} [DecidableEq κ] {k : κ} {v : β} {p : κ × β}
    {l : List (κ × β)} (hnd : (l.map Prod.fst).Nodup) (h : p ∈ ainsert k v l) :
    p = (k, v) ∨ (p ∈ l ∧ p.1 ≠ k) := by
  induction l with
  | nil =>
      simp only [ainsert, List.mem_singleton] at h
      exact Or.inl h
  | cons q rest ih =>
      obtain ⟨k', v'⟩ := q
      simp only [List.map_cons, List.nodup_cons] at hnd
      by_cases h2 : k' = k
      · simp only [ainsert, if_pos h2, List.mem_cons] at h
        rcases h with h | h
        · exact Or.inl h
        · refine Or.inr ⟨List.mem_cons_of_mem _ h, fun he => ?_⟩
          subst h2
          exact hnd.1 (List.mem_map.mpr ⟨p, h, he⟩)
      · simp only [ainsert, if_neg h2, List.mem_cons] at h
        rcases h with h | h
        · refine Or.inr ⟨h ▸ List.mem_cons_self _ _, ?_⟩
          rw [h]
          exact h2
        · rcases ih hnd.2 h with h | ⟨hm, hk⟩
          · exact Or.inl h
          · exact Or.inr ⟨List.mem_cons_of_mem _ hm, hk⟩

/-- If the key already maps to the value being written, a Go map write is a
no-op; the association list is unchanged entry-for-entry. -/
theorem ainsert_lookup_eq_self {κ β : Type} [DecidableEq κ] {k : κ} {v : β}
    {l : List (κ × β)} (h : alookup k l = some v) : ainsert k v l = l := by
  induction l with
  | nil => simp [alookup] at h
  | cons p rest ih =>
      obtain ⟨k', v'⟩ := p
      by_cases h2 : k' = k
      · simp only [alookup, if_pos h2, Option.some_inj] at h
        simp [ainsert, h2, h]
      · simp only [alookup, if_neg h2] at h
        simp [ainsert, h2, ih h]

theorem noSlash_iff {s : String} : noSlash s = true ↔ '/' ∉ s.data := by
  simp only [noSlash, List.all_eq_true, Bool.not_eq_true', beq_eq_false_iff_ne]
  constructor
  · intro h hm
    exact (h '/' hm) rfl
  · intro h c hc he
    exact h (he ▸ hc)

theorem noSlashList_append {xs ys zs ws : List Char}
    (hx : '/' ∉ xs) (hz : '/' ∉ zs)
    (h : xs ++ '/' :: ys = zs ++ '/' :: ws) : xs = zs ∧ ys = ws := by
  induction xs generalizing zs with
  | nil =>
      cases zs with
      | nil => simpa using h
      | cons c zs' =>
          simp only [List.nil_append, List.cons_append, List.cons.injEq] at h
          exact absurd (List.mem_cons_self c zs') (h.1 ▸ fun hm => hz (h.1 ▸ hm))
  | cons c xs' ih =>
      cases zs with
      | nil =>
          simp only [List.cons_append, List.nil_append, List.cons.injEq] at h
          exact absurd (h.1 ▸ List.mem_cons_self c xs') hx
      | cons c' zs' =>
          simp only [List.cons_append, List.cons.injEq] at h
          have hx' : '/' ∉ xs' := fun hm => hx (List.mem_cons_of_mem _ hm)
          have hz' : '/' ∉ zs' := fun hm => hz (List.mem_cons_of_mem _ hm)
          obtain ⟨h1, h2⟩ := ih hx' hz' h.2
          exact ⟨by rw [h.1, h1], h2⟩

theorem slashConcat_data (a b : String) :
    (a ++ "/" ++ b).data = a.data ++ '/' :: b.data := by
  have h : ("/" : String).data = ['/'] := rfl
  simp [String.data_append, h]

theorem slash_append_inj {a b c d : String}
    (ha : noSlash a = true) (hc : noSlash c = true)
    (h : a ++ "/" ++ b = c ++ "/" ++ d) : a = c ∧ b = d := by
  have h' := congrArg String.data h
  rw [slashConcat_data, slashConcat_data] at h'
  obtain ⟨h1, h2⟩ := noSlashList_append (noSlash_iff.mp ha) (noSlash_iff.mp hc) h'
  exact ⟨String.ext h1, String.ext h2⟩

theorem noSlash_ne_slashConcat {a b c : String} (h : noSlash a = true) :
    a ≠ b ++ "/" ++ c := by
  intro he
  have hm : '/' ∈ a.data := by
    rw [he, slashConcat_data]
    simp
  exact (noSlash_iff.mp h) hm

theorem clusterName_false_eq (ns svc pn : String) :
    clusterName false ns svc pn =
      if pn = "" then ns ++ "/" ++ svc else ns ++ "/" ++ (svc ++ "/" ++ pn) := by
  by_cases h : pn = ""
  · simp [clusterName, h, String.append_empty]
  · simp [clusterName, h, String.append_assoc]

/-- In namespace-qualified mode, the cluster-name keys of slash-free
(namespace, service, port-name) triples determine the triple. -/
theorem clusterName_qualified_inj {ns1 n1 ns2 n2 pn1 pn2 : String}
    (h1 : noSlash ns1 = true) (h2 : noSlash n1 = true)
    (h3 : noSlash ns2 = true) (h4 : noSlash n2 = true)
    (heq : clusterName false ns1 n1 pn1 = clusterName false ns2 n2 pn2) :
    ns1 = ns2 ∧ n1 = n2 ∧ pn1 = pn2 := by
  rw [clusterName_false_eq, clusterName_false_eq] at heq
  by_cases e1 : pn1 = "" <;> by_cases e2 : pn2 = ""
  · rw [if_pos e1, if_pos e2] at heq
    obtain ⟨hns, hn⟩ := slash_append_inj h1 h3 heq
    exact ⟨hns, hn, e1.trans e2.symm⟩
  · rw [if_pos e1, if_neg e2] at heq
    obtain ⟨hns, hn⟩ := slash_append_inj h1 h3 heq
    exact absurd hn (noSlash_ne_slashConcat h2)
  · rw [if_neg e1, if_pos e2] at heq
    obtain ⟨hns, hn⟩ := slash_append_inj h1 h3 heq
    exact absurd hn.symm (noSlash_ne_slashConcat h4)
  · rw [if_neg e1, if_neg e2] at heq
    obtain ⟨hns, hrest⟩ := slash_append_inj h1 h3 heq
    obtain ⟨hn, hpn⟩ := slash_append_inj h2 h4 hrest
    exact ⟨hns, hn, hpn⟩

/-- For one source identity, the keys of distinct non-empty port names are
distinct (no slash-freeness needed: the shared base cancels). -/
theorem clusterName_pn_inj {exclude : Bool} {ns svc : String} {pn1 pn2 : String}
    (e1 : pn1 ≠ "") (e2 : pn2 ≠ "")
    (heq : clusterName exclude ns svc pn1 = clusterName exclude ns svc pn2) :
    pn1 = pn2 := by
  simp only [clusterName, if_neg e1, if_neg e2] at heq
  have h' := congrArg String.data heq
  simp only [String.data_append] at h'
  have h2 := List.append_cancel_left h'
  have h3 := List.append_cancel_left h2
  exact String.ext h3

/-! ## Deduplication lemmas -/

theorem mem_of_mem_dedupStrGo {seen l : List String} {x : String}
    (h : x ∈ dedupStrGo seen l) : x ∈ l := by
  induction l generalizing seen with
  | nil => simp [dedupStrGo] at h
  | cons s rest ih =>
      by_cases hs : s ∈ seen
      · simp only [dedupStrGo, if_pos hs] at h
        exact List.mem_cons_of_mem _ (ih h)
      · simp only [dedupStrGo, if_neg hs, List.mem_cons] at h
        rcases h with h | h
        · exact h ▸ List.mem_cons_self _ _
        · exact List.mem_cons_of_mem _ (ih h)

theorem mem_dedupStrGo_of_mem {seen l : List String} {x : String}
    (hx : x ∈ l) (hs : x ∉ seen) : x ∈ dedupStrGo seen l := by
  induction l generalizing seen with
  | nil => simp at hx
  | cons s rest ih =>
      by_cases hmem : s ∈ seen
      · simp only [dedupStrGo, if_pos hmem]
        rcases List.mem_cons.mp hx with h | h
        · exact absurd (h ▸ hmem) hs
        · exact ih h hs
      · simp only [dedupStrGo, if_neg hmem, List.mem_cons]
        rcases List.mem_cons.mp hx with h | h
        · exact Or.inl h
        · by_cases hxs : x = s
          · exact Or.inl hxs
          · exact Or.inr (ih h (by simp [hxs, hs]))

theorem not_mem_seen_of_mem_dedupStrGo {seen l : List String} {x : String}
    (h : x ∈ dedupStrGo seen l) : x ∉ seen := by
  induction l generalizing seen with
  | nil => simp [dedupStrGo] at h
  | cons s rest ih =>
      by_cases hs : s ∈ seen
      · simp only [dedupStrGo, if_pos hs] at h
        exact ih h
      · simp only [dedupStrGo, if_neg hs, List.mem_cons] at h
        rcases h with h | h
        · exact h ▸ hs
        · intro hm
          exact ih h (List.mem_cons_of_mem _ hm)

theorem nodup_dedupStrGo (seen l : List String) : (dedupStrGo seen l).Nodup := by
  induction l generalizing seen with
  | nil => simp [dedupStrGo]
  | cons s rest ih =>
      by_cases hs : s ∈ seen
      · simpa [dedupStrGo, if_pos hs] using ih seen
      · simp only [dedupStrGo, if_neg hs, List.nodup_cons]
        refine ⟨fun hm => ?_, ih (s :: seen)⟩
        exact (not_mem_seen_of_mem_dedupStrGo hm) (List.mem_cons_self _ _)

theorem mem_dedupStr {l : List String} {x : String} : x ∈ dedupStr l ↔ x ∈ l :=
  ⟨mem_of_mem_dedupStrGo, fun h => mem_dedupStrGo_of_mem h (by simp)⟩

theorem nodup_dedupStr (l : List String) : (dedupStr l).Nodup := nodup_dedupStrGo [] l

theorem dedupStrGo_eq_self {seen l : List String} (hnd : l.Nodup)
    (hdis : ∀ x ∈ l, x ∉ seen) : dedupStrGo seen l = l := by
  induction l generalizing seen with
  | nil => rfl
  | cons s rest ih =>
      simp only [List.nodup_cons] at hnd
      have hs : s ∉ seen := hdis s (List.mem_cons_self _ _)
      simp only [dedupStrGo, if_neg hs, List.cons.injEq, true_and]
      refine ih hnd.2 fun x hx => ?_
      intro hm
      rcases List.mem_cons.mp hm with h | h
      · exact hnd.1 (h ▸ hx)
      · exact hdis x (List.mem_cons_of_mem _ hx) h

theorem dedupStr_eq_self {l : List String} (hnd : l.Nodup) : dedupStr l = l :=
  dedupStrGo_eq_self hnd (by simp)

theorem dedupAddrs_eq_nil_iff {l : List LbEndpoint} : dedupAddrs l = [] ↔ l = [] := by
  cases l with
  | nil => simp [dedupAddrs, dedupAddrsGo]
  | cons e rest => simp [dedupAddrs, dedupAddrsGo]

/-- Membership in an erase result, with keys `Nodup`: the entry is an
original entry and its key is not the erased one. -/
theorem mem_aerase_nodup {κ β : Type} [DecidableEq κ] {k : κ} {p : κ × β}
    {l : List (κ × β)} (hnd : (l.map Prod.fst).Nodup) (h : p ∈ aerase k l) :
    p ∈ l ∧ p.1 ≠ k := by
  induction l with
  | nil => simp [aerase] at h
  | cons q rest ih =>
      obtain ⟨k', v'⟩ := q
      simp only [List.map_cons, List.nodup_cons] at hnd
      by_cases h2 : k' = k
      · simp only [aerase, if_pos h2] at h
        refine ⟨List.mem_cons_of_mem _ h, fun he => ?_⟩
        exact hnd.1 (List.mem_map.mpr ⟨p, h, by rw [he, h2]⟩)
      · simp only [aerase, if_neg h2, List.mem_cons] at h
        rcases h with h | h
        · refine ⟨h ▸ List.mem_cons_self _ _, ?_⟩
          rw [h]
          exact h2
        · obtain ⟨hm, hk⟩ := ih hnd.2 h
          exact ⟨List.mem_cons_of_mem _ hm, hk⟩

/-! ## Fold lemmas for the per-key rebuild loop -/

theorem stepKey_lookup_ne (exclude : Bool) (w : Option String → Int)
    (sources : List ((String × String) × Endpoints))
    {k k' : String} (c : List (String × List LbEndpoint)) (h : k' ≠ k) :
    alookup k (stepKey exclude w sources c k') = alookup k c := by
  unfold stepKey
  by_cases hms : rebuildKey exclude w sources k' = []
  · simp only [hms, if_pos rfl]
    exact alookup_aerase_ne c h
  · rw [if_neg hms]
    exact alookup_ainsert_ne _ c h

theorem stepKey_nodup (exclude : Bool) (w : Option String → Int)
    (sources : List ((String × String) × Endpoints))
    (c : List (String × List LbEndpoint)) (k : String)
    (h : (c.map Prod.fst).Nodup) :
    ((stepKey exclude w sources c k).map Prod.fst).Nodup := by
  unfold stepKey
  by_cases hms : rebuildKey exclude w sources k = []
  · simp only [hms, if_pos rfl]
    exact nodup_aerase k c h
  · rw [if_neg hms]
    exact nodup_ainsert k _ c h

theorem foldl_stepKey_lookup_not_mem (exclude : Bool) (w : Option String → Int)
    (sources : List ((String × String) × Endpoints))
    {keys : List String} {k : String} (hk : k ∉ keys)
    (c : List (String × List LbEndpoint)) :
    alookup k (keys.foldl (stepKey exclude w sources) c) = alookup k c := by
  induction keys generalizing c with
  | nil => rfl
  | cons k' rest ih =>
      simp only [List.mem_cons] at hk
      push_neg at hk
      rw [List.foldl_cons, ih hk.2, stepKey_lookup_ne _ _ _ _ (Ne.symm hk.1)]

theorem foldl_stepKey_nodup (exclude : Bool) (w : Option String → Int)
    (sources : List ((String × String) × Endpoints))
    (keys : List String) (c : List (String × List LbEndpoint))
    (hc : (c.map Prod.fst).Nodup) :
    (((keys.foldl (stepKey exclude w sources) c)).map Prod.fst).Nodup := by
  induction keys generalizing c with
  | nil => exact hc
  | cons k' rest ih =>
      rw [List.foldl_cons]
      exact ih _ (stepKey_nodup _ _ _ c k' hc)

/-- After the rebuild loop runs over a duplicate-free key list containing
`k`, a key whose rebuild is empty is absent from the cache. -/
theorem foldl_stepKey_lookup_none (exclude : Bool) (w : Option String → Int)
    (sources : List ((String × String) × Endpoints))
    {keys : List String} {k : String}
    (hnd : keys.Nodup) (hk : k ∈ keys)
    (hr : rebuildKey exclude w sources k = [])
    (c : List (String × List LbEndpoint)) (hc : (c.map Prod.fst).Nodup) :
    alookup k (keys.foldl (stepKey exclude w sources) c) = none := by
  induction keys generalizing c with
  | nil => simp at hk
  | cons k' rest ih =>
      simp only [List.nodup_cons] at hnd
      rw [List.foldl_cons]
      by_cases he : k' = k
      · subst he
        rw [foldl_stepKey_lookup_not_mem _ _ _ hnd.1]
        unfold stepKey
        simp only [hr, if_pos rfl]
        exact alookup_aerase_self k' c hc
      · rcases List.mem_cons.mp hk with h | h
        · exact absurd h.symm he
        · exact ih hnd.2 h _ (stepKey_nodup _ _ _ c k' hc)

/-! ## Contribution lemmas -/

/-- An Endpoints object with no addresses contributes no members for any
port name. -/
theorem lbEndpoints_eq_nil (w : Option String → Int) (e : Endpoints) (pn : String)
    (h : totalAddresses e = 0) : lbEndpoints w e pn = [] := by
  unfold lbEndpoints
  rw [List.flatMap_eq_nil_iff]
  intro s hs
  rw [List.flatMap_eq_nil_iff]
  intro p _
  have hlen : s.addresses.length = 0 := by
    have := List.sum_eq_zero_iff.mp h
    exact this _ (List.mem_map.mpr ⟨s, hs, rfl⟩)
  rw [List.length_eq_zero.mp hlen]
  rfl

/-- An Endpoints object with no addresses contributes no members to any
key. -/
theorem contribTo_eq_nil_of_no_addresses (exclude : Bool) (w : Option String → Int)
    (e : Endpoints) (k : String) (h : totalAddresses e = 0) :
    contribTo exclude w e k = [] := by
  unfold contribTo
  rw [List.flatMap_eq_nil_iff]
  intro pn _
  exact lbEndpoints_eq_nil w e pn h

/-- A source none of whose keys equals `k` contributes nothing to `k`. -/
theorem contribTo_eq_nil_of_no_key (exclude : Bool) (w : Option String → Int)
    (e : Endpoints) (k : String)
    (h : ∀ pn ∈ derivedPortNames e, clusterName exclude e.ns e.name pn ≠ k) :
    contribTo exclude w e k = [] := by
  unfold contribTo
  have hf : ((derivedPortNames e).filter
      (fun pn => clusterName exclude e.ns e.name pn == k)) = [] := by
    rw [List.filter_eq_nil_iff]
    intro pn hpn
    simp only [beq_iff_eq]
    exact h pn hpn
  rw [hf]
  rfl

/-- Port names in `derivedPortNames` are pairwise key-injective. -/
theorem clusterName_inj_on_derived (exclude : Bool) (e : Endpoints)
    {pn1 pn2 : String} (h1 : pn1 ∈ derivedPortNames e) (h2 : pn2 ∈ derivedPortNames e)
    (heq : clusterName exclude e.ns e.name pn1 = clusterName exclude e.ns e.name pn2) :
    pn1 = pn2 := by
  unfold derivedPortNames at h1 h2
  by_cases hu : distinctPortNames e = [""]
  · rw [if_pos hu] at h1 h2
    simp only [List.mem_singleton] at h1 h2
    rw [h1, h2]
  · rw [if_neg hu] at h1 h2
    have e1 : pn1 ≠ "" := by
      have := (List.mem_filter.mp h1).2
      simpa using this
    have e2 : pn2 ≠ "" := by
      have := (List.mem_filter.mp h2).2
      simpa using this
    exact clusterName_pn_inj e1 e2 heq

theorem nodup_derivedPortNames (e : Endpoints) : (derivedPortNames e).Nodup := by
  unfold derivedPortNames
  by_cases hu : distinctPortNames e = [""]
  · simp [hu]
  · rw [if_neg hu]
    exact (nodup_dedupStr _).filter _

theorem nodup_derivedKeys (exclude : Bool) (e : Endpoints) :
    (derivedKeys exclude e).Nodup := by
  unfold derivedKeys
  exact (nodup_derivedPortNames e).map_on
    (fun pn1 h1 pn2 h2 heq => clusterName_inj_on_derived exclude e h1 h2 heq)

/-- Filtering a duplicate-free list by "maps to the same image as `pn0`"
under an injective-on-the-list function keeps exactly `pn0`. -/
theorem filter_imageEq_eq_singleton (f : String → String) {L : List String}
    (hnd : L.Nodup) (hinj : ∀ x ∈ L, ∀ y ∈ L, f x = f y → x = y)
    {pn0 : String} (h0 : pn0 ∈ L) :
    L.filter (fun pn => f pn == f pn0) = [pn0] := by
  induction L with
  | nil => simp at h0
  | cons s rest ih =>
      simp only [List.nodup_cons] at hnd
      rcases List.mem_cons.mp h0 with h | h
      · subst h
        have hrest : rest.filter (fun pn => f pn == f pn0) = [] := by
          rw [List.filter_eq_nil_iff]
          intro pn hpn hbeq
          rw [beq_iff_eq] at hbeq
          have := hinj pn (List.mem_cons_of_mem _ hpn) pn0 (List.mem_cons_self _ _) hbeq
          exact hnd.1 (this ▸ hpn)
        simp only [List.filter_cons, beq_self_eq_true, if_true, hrest]
      · have hne : (f s == f pn0) = false := by
          rw [beq_eq_false_iff_ne]
          intro hbeq
          have := hinj s (List.mem_cons_self _ _) pn0 (List.mem_cons_of_mem _ h) hbeq
          exact hnd.1 (this ▸ h)
        simp only [List.filter_cons, hne, Bool.false_eq_true, if_false]
        exact ih hnd.2 (fun x hx y hy heq =>
          hinj x (List.mem_cons_of_mem _ hx) y (List.mem_cons_of_mem _ hy) heq) h

/-- Filtering the derived port names by "equals the key of `pn0`" keeps
exactly `pn0`. -/
theorem filter_keyEq_eq_singleton (exclude : Bool) (e : Endpoints) {pn0 : String}
    (h0 : pn0 ∈ derivedPortNames e) :
    ((derivedPortNames e).filter
        (fun pn => clusterName exclude e.ns e.name pn ==
                   clusterName exclude e.ns e.name pn0)) = [pn0] :=
  filter_imageEq_eq_singleton (clusterName exclude e.ns e.name)
    (nodup_derivedPortNames e)
    (fun _ hx _ hy heq => clusterName_inj_on_derived exclude e hx hy heq) h0

/-- Contribution of a source to its own key for `pn0`: exactly its members
for `pn0`. -/
theorem contribTo_self (exclude : Bool) (w : Option String → Int) (e : Endpoints)
    {pn0 : String} (h0 : pn0 ∈ derivedPortNames e) :
    contribTo exclude w e (clusterName exclude e.ns e.name pn0) = lbEndpoints w e pn0 := by
  unfold contribTo
  rw [filter_keyEq_eq_singleton exclude e h0]
  simp

/-- Rebuilding any key of a zero-address source's own namespace-qualified
shape yields no members, provided every stored source is either that
source itself or a well-formed source with a different identity. -/
theorem rebuildKey_own_nil (w : Option String → Int) (ep : Endpoints)
    (h0 : totalAddresses ep = 0)
    (hns : noSlash ep.ns = true) (hname : noSlash ep.name = true)
    (sources' : List ((String × String) × Endpoints))
    (hsrc : ∀ p ∈ sources', p.2 = ep ∨
        (p.1 ≠ (ep.ns, ep.name) ∧ p.1 = (p.2.ns, p.2.name) ∧
         noSlash p.2.ns = true ∧ noSlash p.2.name = true))
    (pn0 : String) :
    rebuildKey false w sources' (clusterName false ep.ns ep.name pn0) = [] := by
  unfold rebuildKey
  have hfm : sources'.flatMap
      (fun p => contribTo false w p.2 (clusterName false ep.ns ep.name pn0)) = [] := by
    rw [List.flatMap_eq_nil_iff]
    intro p hp
    rcases hsrc p hp with he | ⟨hne, hid, hslns, hslname⟩
    · rw [he]
      exact contribTo_eq_nil_of_no_addresses _ _ _ _ h0
    · apply contribTo_eq_nil_of_no_key
      intro pn _ heq
      obtain ⟨h1, h2, _⟩ := clusterName_qualified_inj hslns hslname hns hname heq
      apply hne
      rw [hid, h1, h2]
  rw [hfm]
  rfl

theorem stepKey_preserves_nonempty (exclude : Bool) (w : Option String → Int)
    (sources : List ((String × String) × Endpoints))
    (c : List (String × List LbEndpoint)) (k : String)
    (h : ∀ p ∈ c, p.2 ≠ []) :
    ∀ p ∈ stepKey exclude w sources c k, p.2 ≠ [] := by
  intro p hp
  unfold stepKey at hp
  by_cases hms : rebuildKey exclude w sources k = []
  · rw [hms, if_pos rfl] at hp
    exact h p (mem_aerase hp)
  · rw [if_neg hms] at hp
    rcases mem_ainsert hp with he | hm
    · rw [he]
      exact hms
    · exact h p hm

theorem foldl_stepKey_preserves_nonempty (exclude : Bool) (w : Option String → Int)
    (sources : List ((String × String) × Endpoints)) (keys : List String)
    (c : List (String × List LbEndpoint)) (h : ∀ p ∈ c, p.2 ≠ []) :
    ∀ p ∈ keys.foldl (stepKey exclude w sources) c, p.2 ≠ [] := by
  induction keys generalizing c with
  | nil => exact h
  | cons k rest ih =>
      rw [List.foldl_cons]
      exact ih _ (stepKey_preserves_nonempty exclude w sources c k h)

theorem applyEvent_preserves_nonempty (exclude : Bool) (w : Option String → Int)
    (st : EndpointsTranslator) (ev : EpEvent) (h : ∀ p ∈ st.cache, p.2 ≠ []) :
    ∀ p ∈ (EndpointsTranslator.applyEvent exclude w st ev).cache, p.2 ≠ [] := by
  cases ev <;>
    exact foldl_stepKey_preserves_nonempty exclude w _ _ st.cache h

/-- Every cache entry of a state reached from the empty translator has at
least one member: an empty rebuild deletes its key instead of storing. -/
theorem runEvents_nonempty (exclude : Bool) (w : Option String → Int)
    (evs : List EpEvent) :
    ∀ p ∈ (EndpointsTranslator.runEvents exclude w EndpointsTranslator.empty evs).cache,
      p.2 ≠ [] := by
  have haux : ∀ (evs : List EpEvent) (st : EndpointsTranslator),
      (∀ p ∈ st.cache, p.2 ≠ []) →
      ∀ p ∈ (EndpointsTranslator.runEvents exclude w st evs).cache, p.2 ≠ [] := by
    intro evs
    induction evs with
    | nil => intro st h; exact h
    | cons e rest ih =>
        intro st h
        exact ih _ (applyEvent_preserves_nonempty exclude w st e h)
  exact haux evs EndpointsTranslator.empty (by intro p hp; simp [EndpointsTranslator.empty] at hp)

/-- Folding the rebuild step over fresh duplicate-free keys whose rebuilds
are all non-empty appends one entry per key. -/
theorem foldl_stepKey_fresh (exclude : Bool) (w : Option String → Int)
    (sources : List ((String × String) × Endpoints)) :
    ∀ (keys : List String) (c : List (String × List LbEndpoint)),
      keys.Nodup → (∀ k ∈ keys, k ∉ c.map Prod.fst) →
      (∀ k ∈ keys, rebuildKey exclude w sources k ≠ []) →
      (keys.foldl (stepKey exclude w sources) c).map Prod.fst = c.map Prod.fst ++ keys := by
  intro keys
  induction keys with
  | nil =>
      intro c _ _ _
      simp
  | cons k rest ih =>
      intro c hnd hdis hne
      simp only [List.nodup_cons] at hnd
      rw [List.foldl_cons]
      have hms : rebuildKey exclude w sources k ≠ [] := hne k (List.mem_cons_self _ _)
      have hmap : (stepKey exclude w sources c k).map Prod.fst = c.map Prod.fst ++ [k] := by
        unfold stepKey
        rw [if_neg hms, map_fst_ainsert, if_neg (hdis k (List.mem_cons_self _ _))]
      have hdis' : ∀ k' ∈ rest, k' ∉ (stepKey exclude w sources c k).map Prod.fst := by
        intro k' hk'
        rw [hmap]
        intro hm
        rcases List.mem_append.mp hm with hm | hm
        · exact hdis k' (List.mem_cons_of_mem _ hk') hm
        · simp only [List.mem_singleton] at hm
          exact hnd.1 (hm ▸ hk')
      rw [ih _ hnd.2 hdis' (fun k' hk' => hne k' (List.mem_cons_of_mem _ hk')), hmap]
      simp

/-- C2: an Endpoints object whose subsets hold zero addresses leaves no
namespace-qualified key of its own (namespace, name) in the cache after it
is processed through `OnAdd`, `OnUpdate` (with the old version carrying the
same identity) or `OnDelete`; and, in every naming mode, each cache entry of
any state reached from the empty translator has at least one member — an
entry exists only while it has members, and a rebuild that comes out empty
removes the key instead of storing it.  The slash-freeness hypotheses state
that the identities involved are legal Kubernetes names (which never
contain `/`), so that keys of distinct identities cannot collide. -/
theorem C2_scale_to_zero (w : Option String → Int) (st : EndpointsTranslator)
    (o ep : Endpoints)
    (hwf : WfTranslator st)
    (hns : noSlash ep.ns = true) (hname : noSlash ep.name = true)
    (hid : o.ns = ep.ns ∧ o.name = ep.name)
    (h0 : totalAddresses ep = 0) :
    (∀ k ∈ derivedKeys false ep,
        alookup k (EndpointsTranslator.applyEvent false w st (EpEvent.add ep)).cache = none) ∧
    (∀ k ∈ derivedKeys false o ++ derivedKeys false ep,
        alookup k (EndpointsTranslator.applyEvent false w st (EpEvent.update o ep)).cache = none) ∧
    (∀ k ∈ derivedKeys false ep,
        alookup k (EndpointsTranslator.applyEvent false w st (EpEvent.delete ep)).cache = none) ∧
    (∀ exclude evs,
        ∀ p ∈ (EndpointsTranslator.runEvents exclude w EndpointsTranslator.empty evs).cache,
          p.2 ≠ []) := by
  obtain ⟨hcnd, hsnd, hsrcwf⟩ := hwf
  have hsrcIns : ∀ p ∈ ainsert (ep.ns, ep.name) ep st.sources, p.2 = ep ∨
      (p.1 ≠ (ep.ns, ep.name) ∧ p.1 = (p.2.ns, p.2.name) ∧
       noSlash p.2.ns = true ∧ noSlash p.2.name = true) := by
    intro p hp
    rcases mem_ainsert_nodup hsnd hp with he | ⟨hm, hne⟩
    · exact Or.inl (by rw [he])
    · exact Or.inr ⟨hne, hsrcwf p hm⟩
  have hsrcDel : ∀ p ∈ aerase (ep.ns, ep.name) st.sources, p.2 = ep ∨
      (p.1 ≠ (ep.ns, ep.name) ∧ p.1 = (p.2.ns, p.2.name) ∧
       noSlash p.2.ns = true ∧ noSlash p.2.name = true) := by
    intro p hp
    obtain ⟨hm, hne⟩ := mem_aerase_nodup hsnd hp
    exact Or.inr ⟨hne, hsrcwf p hm⟩
  refine ⟨?_, ?_, ?_, ?_⟩
  · intro k hk
    obtain ⟨pn0, _, hkEq⟩ := List.mem_map.mp hk
    simp only [EndpointsTranslator.applyEvent, recompute]
    exact foldl_stepKey_lookup_none false w _ (nodup_dedupStr _)
      (mem_dedupStr.mpr (by simpa using hk))
      (hkEq ▸ rebuildKey_own_nil w ep h0 hns hname _ hsrcIns pn0) st.cache hcnd
  · intro k hk
    have hshape : ∃ pn0, k = clusterName false ep.ns ep.name pn0 := by
      rcases List.mem_append.mp hk with h | h
      · obtain ⟨pn0, _, hkEq⟩ := List.mem_map.mp h
        exact ⟨pn0, by rw [← hkEq, hid.1, hid.2]⟩
      · obtain ⟨pn0, _, hkEq⟩ := List.mem_map.mp h
        exact ⟨pn0, hkEq.symm⟩
    obtain ⟨pn0, hkEq⟩ := hshape
    simp only [EndpointsTranslator.applyEvent, recompute]
    exact foldl_stepKey_lookup_none false w _ (nodup_dedupStr _)
      (mem_dedupStr.mpr (by simpa using hk))
      (hkEq ▸ rebuildKey_own_nil w ep h0 hns hname _ hsrcIns pn0) st.cache hcnd
  · intro k hk
    obtain ⟨pn0, _, hkEq⟩ := List.mem_map.mp hk
    simp only [EndpointsTranslator.applyEvent, recompute]
    exact foldl_stepKey_lookup_none false w _ (nodup_dedupStr _)
      (mem_dedupStr.mpr (by simpa using hk))
      (hkEq ▸ rebuildKey_own_nil w ep h0 hns hname _ hsrcDel pn0) st.cache hcnd
  · intro exclude evs
    exact runEvents_nonempty exclude w evs

/-- C2 witness: the `TestIssue602` scenario — `default/simple` is cached
after the add, and gone after the update to an object with no subsets. -/
theorem C2_scale_to_zero_witness :
    alookup "default/simple"
      (EndpointsTranslator.applyEvent false w1 stSimple
        (EpEvent.update epSimple epEmptySimple)).cache = none :=
  (C2_scale_to_zero w1 stSimple epSimple epEmptySimple
      (by unfold WfTranslator; decide) (by decide) (by decide) ⟨rfl, rfl⟩ (by decide)).2.1
    "default/simple" (by decide)

/-- C3 (amended): with namespace-exclusion on, two Endpoints objects in
different namespaces with the same service name, the same single derived
port name, and at least one address each, merge onto the one excluded-mode
key; its members are the deduplicated concatenation of both objects'
members, and deleting one object leaves exactly the other's members. -/
theorem C3_namespace_merge (w : Option String → Int) (ep1 ep2 : Endpoints) (pn : String)
    (hns : ep1.ns ≠ ep2.ns) (hsvc : ep1.name = ep2.name)
    (hp1 : derivedPortNames ep1 = [pn]) (hp2 : derivedPortNames ep2 = [pn])
    (h1 : lbEndpoints w ep1 pn ≠ []) (h2 : lbEndpoints w ep2 pn ≠ []) :
    (EndpointsTranslator.applyEvent true w
        (EndpointsTranslator.applyEvent true w EndpointsTranslator.empty (EpEvent.add ep1))
        (EpEvent.add ep2)).cache
      = [(clusterName true ep1.ns ep1.name pn,
          dedupAddrs (lbEndpoints w ep1 pn ++ lbEndpoints w ep2 pn))] ∧
    (EndpointsTranslator.applyEvent true w
        (EndpointsTranslator.applyEvent true w
          (EndpointsTranslator.applyEvent true w EndpointsTranslator.empty (EpEvent.add ep1))
          (EpEvent.add ep2))
        (EpEvent.delete ep1)).cache
      = [(clusterName true ep1.ns ep1.name pn, dedupAddrs (lbEndpoints w ep2 pn))] := by
  have hk : clusterName true ep2.ns ep2.name pn = clusterName true ep1.ns ep1.name pn := by
    simp [clusterName, hsvc]
  have hidne : ((ep1.ns, ep1.name) : String × String) ≠ (ep2.ns, ep2.name) :=
    fun h => hns (congrArg Prod.fst h)
  have hc1 : contribTo true w ep1 (clusterName true ep1.ns ep1.name pn)
      = lbEndpoints w ep1 pn := by
    unfold contribTo
    rw [hp1]
    simp
  have hc2 : contribTo true w ep2 (clusterName true ep1.ns ep1.name pn)
      = lbEndpoints w ep2 pn := by
    unfold contribTo
    rw [hp2, ← hk]
    simp
  have hd1 : dedupAddrs (lbEndpoints w ep1 pn) ≠ [] :=
    fun hh => h1 (dedupAddrs_eq_nil_iff.mp hh)
  have hd12 : dedupAddrs (lbEndpoints w ep1 pn ++ lbEndpoints w ep2 pn) ≠ [] := by
    intro hh
    have := dedupAddrs_eq_nil_iff.mp hh
    exact h1 (by simpa using congrArg (List.take (lbEndpoints w ep1 pn).length) this)
  have hd2 : dedupAddrs (lbEndpoints w ep2 pn) ≠ [] :=
    fun hh => h2 (dedupAddrs_eq_nil_iff.mp hh)
  have hst1 : EndpointsTranslator.applyEvent true w EndpointsTranslator.empty (EpEvent.add ep1)
      = ⟨[(clusterName true ep1.ns ep1.name pn, dedupAddrs (lbEndpoints w ep1 pn))],
         [((ep1.ns, ep1.name), ep1)]⟩ := by
    simp only [EndpointsTranslator.applyEvent, recompute, EndpointsTranslator.empty]
    simp [derivedKeys, hp1, ainsert, dedupStr, dedupStrGo, stepKey, rebuildKey, hc1, hd1]
  have hst2 : EndpointsTranslator.applyEvent true w
      (EndpointsTranslator.applyEvent true w EndpointsTranslator.empty (EpEvent.add ep1))
      (EpEvent.add ep2)
      = ⟨[(clusterName true ep1.ns ep1.name pn,
           dedupAddrs (lbEndpoints w ep1 pn ++ lbEndpoints w ep2 pn))],
         [((ep1.ns, ep1.name), ep1), ((ep2.ns, ep2.name), ep2)]⟩ := by
    rw [hst1]
    simp only [EndpointsTranslator.applyEvent, recompute]
    simp [derivedKeys, hp2, hk, ainsert, hidne, Ne.symm hidne, dedupStr, dedupStrGo,
      stepKey, rebuildKey, hc1, hc2, hd12]
  refine ⟨by rw [hst2], ?_⟩
  rw [hst2]
  simp only [EndpointsTranslator.applyEvent, recompute]
  simp [derivedKeys, hp1, aerase, ainsert, hidne, Ne.symm hidne, dedupStr, dedupStrGo,
    stepKey, rebuildKey, hc2, hd2]

/-- C3 witness: the repository's namespace-merge test data — staging with
one address, prod with five, merged under the single key `simple`; deleting
the staging object leaves exactly the five prod members. -/
theorem C3_namespace_merge_witness :
    (EndpointsTranslator.applyEvent true w1
        (EndpointsTranslator.applyEvent true w1 EndpointsTranslator.empty
          (EpEvent.add epStaging))
        (EpEvent.add epProd)).cache
      = [(clusterName true epStaging.ns epStaging.name "",
          dedupAddrs (lbEndpoints w1 epStaging "" ++ lbEndpoints w1 epProd ""))] ∧
    (EndpointsTranslator.applyEvent true w1
        (EndpointsTranslator.applyEvent true w1
          (EndpointsTranslator.applyEvent true w1 EndpointsTranslator.empty
            (EpEvent.add epStaging))
          (EpEvent.add epProd))
        (EpEvent.delete epStaging)).cache
      = [(clusterName true epStaging.ns epStaging.name "",
          dedupAddrs (lbEndpoints w1 epProd ""))] :=
  C3_namespace_merge w1 epStaging epProd "" (by decide) rfl (by decide) (by decide)
    (by decide) (by decide)

/-- C3 counterexample: two Endpoints objects in different namespaces with
the same service name and port name but no addresses at all — after both
adds the cache holds no key whatsoever, while the claim as stated promises
a single merged key for any such pair. -/
theorem C3_namespace_merge_counterexample :
    (EndpointsTranslator.applyEvent true w1
        (EndpointsTranslator.applyEvent true w1 EndpointsTranslator.empty
          (EpEvent.add epStagingEmpty))
        (EpEvent.add epProdEmpty)).cache = [] := by decide

/-- C4 (amended): adding an Endpoints object to a fresh translator yields
exactly one cache key per derived port name — the distinct non-empty port
names, each suffixing its key, or the single suffix-free key when the only
distinct port name is the empty one — provided every derived port name has
at least one contributing address. -/
theorem C4_port_fanout (exclude : Bool) (w : Option String → Int) (ep : Endpoints)
    (hne : ∀ pn ∈ derivedPortNames ep, lbEndpoints w ep pn ≠ []) :
    (EndpointsTranslator.applyEvent exclude w EndpointsTranslator.empty
        (EpEvent.add ep)).cache.map Prod.fst = derivedKeys exclude ep ∧
    derivedKeys exclude ep
      = (derivedPortNames ep).map (clusterName exclude ep.ns ep.name) ∧
    (distinctPortNames ep = [""] → derivedPortNames ep = [""]) ∧
    (distinctPortNames ep ≠ [""] →
      derivedPortNames ep = (distinctPortNames ep).filter (fun pn => !(pn == ""))) := by
  refine ⟨?_, rfl, fun h => by simp [derivedPortNames, h], fun h => by simp [derivedPortNames, h]⟩
  simp only [EndpointsTranslator.applyEvent, recompute, EndpointsTranslator.empty,
    Option.elim_none, Option.elim_some]
  have hkeys : dedupStr (([] : List String) ++ derivedKeys exclude ep) = derivedKeys exclude ep := by
    rw [List.nil_append]
    exact dedupStr_eq_self (nodup_derivedKeys exclude ep)
  rw [hkeys]
  have hrebuild : ∀ k ∈ derivedKeys exclude ep,
      rebuildKey exclude w (ainsert (ep.ns, ep.name) ep []) k ≠ [] := by
    intro k hk
    obtain ⟨pn0, hpn0, hkEq⟩ := List.mem_map.mp hk
    subst hkEq
    unfold rebuildKey
    simp only [ainsert, List.flatMap_cons, List.flatMap_nil, List.append_nil]
    rw [contribTo_self exclude w ep hpn0]
    intro hh
    exact hne pn0 hpn0 (dedupAddrs_eq_nil_iff.mp hh)
  have := foldl_stepKey_fresh exclude w (ainsert (ep.ns, ep.name) ep [])
    (derivedKeys exclude ep) [] (nodup_derivedKeys exclude ep)
    (by intro k _ hm; simp at hm) hrebuild
  simpa using this

/-- C4 witness: the `TestAddEndpointComplicated` object (ports `foo` and
`admin` over three subsets) yields exactly the two suffixed keys. -/
theorem C4_port_fanout_witness :
    (EndpointsTranslator.applyEvent false w1 EndpointsTranslator.empty
        (EpEvent.add epKuard)).cache.map Prod.fst
      = ["default/kuard/foo", "default/kuard/admin"] := by
  have h := (C4_port_fanout false w1 epKuard (by decide)).1
  rw [h]
  decide

/-- C4 counterexample: an Endpoints object with two distinctly named ports
but no addresses yields zero cache keys, not two — the claim as stated
(exactly N keys for N distinctly named ports) fails without the
at-least-one-address condition. -/
theorem C4_port_fanout_counterexample :
    (distinctPortNames epTwoPortsNoAddrs).length = 2 ∧
    (EndpointsTranslator.applyEvent false w1 EndpointsTranslator.empty
        (EpEvent.add epTwoPortsNoAddrs)).cache = [] := by decide

/-- C1 counterexample: adding a fresh node whose annotation reads `5` to an
empty cache stores weight 5 under its name — but fires the weights-changed
observer once, where the claim asserts the observer is not invoked on
`OnAdd` (the repository's `TestNodeWeightProvider`/"weight from annotation"
test also expects the handler to be called).  Initial population IS treated
as a change by `setWeight`. -/
theorem C1_onadd_counterexample :
    (NodeWeightCache.OnAdd nwc0 (KObject.node nodeW5)).fires = 1 ∧
    (NodeWeightCache.OnAdd nwc0 (KObject.node nodeW5)).state.nodeWeights
      = [("node1", 5)] := by decide

/-- C1 (amended): `OnAdd` of a node computes the weight from the node's
annotation value through `getWeightFromAnn` (which falls back to the
default weight on a missing annotation, a parse failure, or a value outside
[0, 128]), stores it keyed by node name, never logs — and invokes the
weights-changed observer exactly when the node was not already tracked at
that same weight, so initial population does fire the observer. -/
theorem C1_onadd_weight_cache (s : NodeWeightCache) (n : Node) :
    alookup n.meta.name (NodeWeightCache.OnAdd s (KObject.node n)).state.nodeWeights
      = some (getWeightFromAnn n.meta s.NodeWeightAnn s.DefaultNodeWeight) ∧
    (NodeWeightCache.OnAdd s (KObject.node n)).fires
      = (if alookup n.meta.name s.nodeWeights
            = some (getWeightFromAnn n.meta s.NodeWeightAnn s.DefaultNodeWeight)
         then 0 else 1) ∧
    (NodeWeightCache.OnAdd s (KObject.node n)).logged = false := by
  unfold NodeWeightCache.OnAdd NodeWeightCache.setWeight
  cases hl : alookup n.meta.name s.nodeWeights with
  | none => simp [hl, alookup_ainsert_self]
  | some wgt =>
      by_cases he : wgt = getWeightFromAnn n.meta s.NodeWeightAnn s.DefaultNodeWeight
      · simp [hl, he]
      · simp [hl, he, alookup_ainsert_self, Ne.symm he]

/-- C5: on a node Add, and on a node Update whose old node is tracked, an
annotation that is missing, unparsable, or parses outside [0, 128] leaves
the default weight stored for the node, never the literal parsed value.
The hypothesis captures all three cases: `getIntAnn` returns the default
itself for a missing or unparsable annotation, and an out-of-range parse
is the remaining disjunct; the conclusion holds for every prior cache
state, so the resolution is re-evaluated on each event and is not
sticky. -/
theorem C5_weight_clamp (s : NodeWeightCache) (o n : Node)
    (ho : (alookup o.meta.name s.nodeWeights).isSome = true)
    (hres : getIntAnn n.meta s.NodeWeightAnn s.DefaultNodeWeight = s.DefaultNodeWeight
          ∨ getIntAnn n.meta s.NodeWeightAnn s.DefaultNodeWeight < 0
          ∨ 128 < getIntAnn n.meta s.NodeWeightAnn s.DefaultNodeWeight) :
    alookup n.meta.name (NodeWeightCache.OnAdd s (KObject.node n)).state.nodeWeights
      = some s.DefaultNodeWeight ∧
    alookup o.meta.name
        (NodeWeightCache.OnUpdate s (KObject.node o) (KObject.node n)).state.nodeWeights
      = some s.DefaultNodeWeight := by
  have hw : getWeightFromAnn n.meta s.NodeWeightAnn s.DefaultNodeWeight
      = s.DefaultNodeWeight := by
    unfold getWeightFromAnn normalizeWeight
    rcases hres with h | h | h
    · rw [h]
      split <;> rfl
    · rw [if_pos (Or.inl h)]
    · rw [if_pos (Or.inr (by omega))]
  constructor
  · simp only [NodeWeightCache.OnAdd, NodeWeightCache.setWeight, hw]
    cases hl : alookup n.meta.name s.nodeWeights with
    | none => simp [hl, alookup_ainsert_self]
    | some wgt =>
        by_cases he : wgt = s.DefaultNodeWeight
        · simp [hl, he]
        · simp [hl, he, alookup_ainsert_self]
  · simp only [NodeWeightCache.OnUpdate, NodeWeightCache.updateWeight, hw]
    obtain ⟨ow, hlo⟩ := Option.isSome_iff_exists.mp ho
    by_cases he : ow = s.DefaultNodeWeight
    · simp [hlo, he]
    · simp [hlo, he, alookup_ainsert_self]

/-- C5 witness: on the cache tracking `node1` at 77, adding (or updating
to) a node whose annotation reads `129` stores the default weight 1, not
129. -/
theorem C5_weight_clamp_witness :
    alookup "node1"
        (NodeWeightCache.OnAdd nwcTracked (KObject.node nodeW129)).state.nodeWeights
      = some 1 ∧
    alookup "node1"
        (NodeWeightCache.OnUpdate nwcTracked (KObject.node nodeNoAnn)
          (KObject.node nodeW129)).state.nodeWeights
      = some 1 :=
  C5_weight_clamp nwcTracked nodeNoAnn nodeW129 (by decide)
    (Or.inr (Or.inr (by decide)))

/-- C6: `OnUpdate` with two nodes recomputes only when the old node's name
is tracked; when it is tracked and the newly computed weight differs from
the stored one, the new weight is stored under that name and the observer
fires exactly once; in the untracked and the unchanged-weight cases the
whole state is unchanged and the observer does not fire. -/
theorem C6_onupdate_tracked_only (s : NodeWeightCache) (o n : Node) :
    (alookup o.meta.name s.nodeWeights = none →
      NodeWeightCache.OnUpdate s (KObject.node o) (KObject.node n)
        = ⟨s, 0, false⟩) ∧
    (∀ ow, alookup o.meta.name s.nodeWeights = some ow →
      (ow = getWeightFromAnn n.meta s.NodeWeightAnn s.DefaultNodeWeight →
        NodeWeightCache.OnUpdate s (KObject.node o) (KObject.node n)
          = ⟨s, 0, false⟩) ∧
      (ow ≠ getWeightFromAnn n.meta s.NodeWeightAnn s.DefaultNodeWeight →
        NodeWeightCache.OnUpdate s (KObject.node o) (KObject.node n)
          = ⟨⟨s.NodeWeightAnn, s.DefaultNodeWeight,
              ainsert o.meta.name
                (getWeightFromAnn n.meta s.NodeWeightAnn s.DefaultNodeWeight)
                s.nodeWeights⟩, 1, false⟩)) := by
  simp only [NodeWeightCache.OnUpdate, NodeWeightCache.updateWeight]
  constructor
  · intro hl
    simp [hl]
  · intro ow hl
    constructor
    · intro he
      simp [hl, he]
    · intro he
      simp [hl, he]

/-- C7: `GetNodeWeight` returns the tracked weight when the supplied name
is tracked and the configured default weight when the name is untracked or
absent (`none`, the nil pointer); being a plain function of the state that
returns only an integer, the query cannot mutate the cache. -/
theorem C7_get_node_weight (s : NodeWeightCache) (name : String) :
    NodeWeightCache.GetNodeWeight s none = s.DefaultNodeWeight ∧
    NodeWeightCache.GetNodeWeight s (some name)
      = (alookup name s.nodeWeights).getD s.DefaultNodeWeight := by
  refine ⟨rfl, ?_⟩
  simp only [NodeWeightCache.GetNodeWeight]
  cases hl : alookup name s.nodeWeights <;> simp [hl]

/-- C8: `OnDelete` of a `DeletedFinalStateUnknown` tombstone wrapping any
value produces exactly the same result (state, observer firings, logging)
as `OnDelete` of the wrapped value itself — the handler recurses into the
tombstone's payload. -/
theorem C8_tombstone_delete (s : NodeWeightCache) (key : String) (v : KObject) :
    NodeWeightCache.OnDelete s (KObject.tombstone key v)
      = NodeWeightCache.OnDelete s v := rfl

/-- C9 counterexample: a pair of Endpoints objects delivered to
`NodeWeightCache.OnUpdate` — an object kind the node-weight cache does not
track — is dropped without mutating state, but it is NOT logged: the
handler's explicit `*v1.Endpoints` case returns silently, where the claim
says every unexpected-kind delivery is logged. -/
theorem C9_unexpected_kind_counterexample :
    (NodeWeightCache.OnUpdate nwc0 (KObject.endpoints epPlain)
        (KObject.endpoints epPlain)).logged = false ∧
    (NodeWeightCache.OnUpdate nwc0 (KObject.endpoints epPlain)
        (KObject.endpoints epPlain)).state = nwc0 ∧
    (NodeWeightCache.OnUpdate nwc0 (KObject.endpoints epPlain)
        (KObject.endpoints epPlain)).fires = 0 := by decide

/-- C9 (amended): a delivery of anything but a node to `OnAdd`, of a pair
that is not two nodes to `OnUpdate`, or of anything but a node or tombstone
to `OnDelete`, never mutates the cached state and never fires the observer;
it is logged as an error in every case except an `OnUpdate` carrying two
Endpoints objects, which the handler drops silently. -/
theorem C9_unexpected_kind (s : NodeWeightCache) (x u v z : KObject)
    (hx : x.isNode = false)
    (huv : (u.isNode && v.isNode) = false)
    (hz : (z.isNode || z.isTombstone) = false) :
    NodeWeightCache.OnAdd s x = ⟨s, 0, true⟩ ∧
    (NodeWeightCache.OnUpdate s u v).state = s ∧
    (NodeWeightCache.OnUpdate s u v).fires = 0 ∧
    (NodeWeightCache.OnUpdate s u v).logged = !(u.isEndpoints && v.isEndpoints) ∧
    NodeWeightCache.OnDelete s z = ⟨s, 0, true⟩ := by
  refine ⟨?_, ?_, ?_, ?_, ?_⟩
  · cases x <;> simp_all [KObject.isNode, NodeWeightCache.OnAdd]
  · cases v <;> cases u <;>
      simp_all [KObject.isNode, KObject.isEndpoints, NodeWeightCache.OnUpdate]
  · cases v <;> cases u <;>
      simp_all [KObject.isNode, KObject.isEndpoints, NodeWeightCache.OnUpdate]
  · cases v <;> cases u <;>
      simp_all [KObject.isNode, KObject.isEndpoints, NodeWeightCache.OnUpdate]
  · cases z <;> simp_all [KObject.isNode, KObject.isTombstone, NodeWeightCache.OnDelete]

/-- C9 witness: a wrong-kind add and delete are logged and dropped; the
silent Endpoints-pair update leaves the state untouched. -/
theorem C9_unexpected_kind_witness :
    NodeWeightCache.OnAdd nwc0 KObject.other = ⟨nwc0, 0, true⟩ ∧
    (NodeWeightCache.OnUpdate nwc0 (KObject.endpoints epPlain)
        (KObject.endpoints epPlain)).state = nwc0 ∧
    (NodeWeightCache.OnUpdate nwc0 (KObject.endpoints epPlain)
        (KObject.endpoints epPlain)).fires = 0 ∧
    (NodeWeightCache.OnUpdate nwc0 (KObject.endpoints epPlain)
        (KObject.endpoints epPlain)).logged
      = !((KObject.endpoints epPlain).isEndpoints &&
          (KObject.endpoints epPlain).isEndpoints) ∧
    NodeWeightCache.OnDelete nwc0 KObject.other = ⟨nwc0, 0, true⟩ :=
  C9_unexpected_kind nwc0 KObject.other (KObject.endpoints epPlain)
    (KObject.endpoints epPlain) KObject.other (by decide) (by decide) (by decide)

theorem toCache_OnAdd (p : NodeWeightProvider) (obj : KObject) :
    (NodeWeightProvider.OnAdd p obj).toCache
      = (NodeWeightCache.OnAdd (NodeWeightProvider.toCache p) obj).state := by
  cases obj with
  | node n =>
      simp only [NodeWeightProvider.OnAdd, NodeWeightCache.OnAdd, NodeWeightCache.setWeight,
        NodeWeightProvider.toCache]
      cases hl : alookup n.meta.name p.nodeWeights with
      | none => simp [hl]
      | some wgt =>
          by_cases he : wgt = getWeightFromAnn n.meta p.NodeWeightAnn p.DefaultNodeWeight
          · simp [hl, he, ainsert_lookup_eq_self (he ▸ hl)]
          · simp [hl, he]
  | endpoints e => rfl
  | tombstone k o => rfl
  | other => rfl

theorem toCache_OnUpdate (p : NodeWeightProvider) (oldObj newObj : KObject) :
    (NodeWeightProvider.OnUpdate p oldObj newObj).toCache
      = (NodeWeightCache.OnUpdate (NodeWeightProvider.toCache p) oldObj newObj).state := by
  cases newObj with
  | node n =>
      cases oldObj with
      | node o =>
          simp only [NodeWeightProvider.OnUpdate, NodeWeightCache.OnUpdate,
            NodeWeightProvider.updateWeight, NodeWeightCache.updateWeight,
            NodeWeightProvider.toCache]
          cases hl : alookup o.meta.name p.nodeWeights with
          | none => simp [hl]
          | some ow =>
              by_cases he : ow = getWeightFromAnn n.meta p.NodeWeightAnn p.DefaultNodeWeight
              · simp [hl, he]
              · simp [hl, he]
      | endpoints e => rfl
      | tombstone k o => rfl
      | other => rfl
  | endpoints e =>
      cases oldObj <;> rfl
  | tombstone k o => rfl
  | other => rfl

theorem toCache_OnDelete (p : NodeWeightProvider) : ∀ (obj : KObject),
    (NodeWeightProvider.OnDelete p obj).toCache
      = (NodeWeightCache.OnDelete (NodeWeightProvider.toCache p) obj).state
  | .node _ => rfl
  | .endpoints _ => rfl
  | .tombstone _ o => toCache_OnDelete p o
  | .other => rfl

theorem toCache_applyEvent (p : NodeWeightProvider) (e : CacheEvent) :
    (NodeWeightProvider.applyEvent p e).toCache
      = NodeWeightCache.applyEvent (NodeWeightProvider.toCache p) e := by
  cases e with
  | add o => exact toCache_OnAdd p o
  | update o n => exact toCache_OnUpdate p o n
  | delete o => exact toCache_OnDelete p o

theorem toCache_run (evs : List CacheEvent) : ∀ (p : NodeWeightProvider),
    (NodeWeightProvider.run p evs).toCache
      = NodeWeightCache.run (NodeWeightProvider.toCache p) evs := by
  induction evs with
  | nil => intro p; rfl
  | cons e rest ih =>
      intro p
      simp only [NodeWeightProvider.run, NodeWeightCache.run]
      rw [← toCache_applyEvent]
      exact ih _

/-- C10: starting from the same configuration and an empty map, the legacy
`NodeWeightProvider` of `node.go` and the `NodeWeightCache` produce
identical `nodeWeights` contents after any sequence of Add/Update/Delete
events, and therefore identical `GetNodeWeight` answers for every query;
the run through the cache also carries the observer firings the legacy
version lacks, which is the only behavioural difference. -/
theorem C10_provider_cache_equiv (ann : String) (dw : Int)
    (evs : List CacheEvent) (q : Option String) :
    (NodeWeightProvider.run ⟨ann, dw, []⟩ evs).nodeWeights
      = (NodeWeightCache.run ⟨ann, dw, []⟩ evs).nodeWeights ∧
    NodeWeightProvider.GetNodeWeight (NodeWeightProvider.run ⟨ann, dw, []⟩ evs) q
      = NodeWeightCache.GetNodeWeight (NodeWeightCache.run ⟨ann, dw, []⟩ evs) q := by
  have h := toCache_run evs ⟨ann, dw, []⟩
  have hget : ∀ (p : NodeWeightProvider) (q : Option String),
      NodeWeightProvider.GetNodeWeight p q
        = NodeWeightCache.GetNodeWeight p.toCache q := by
    intro p q
    cases q <;> rfl
  constructor
  · exact congrArg NodeWeightCache.nodeWeights h
  · rw [hget]
    exact congrArg (fun c => NodeWeightCache.GetNodeWeight c q) h
